import Mathlib

/-!
Shallow embedding of the Linux sparse-file copy module
(src/libstd/sys/unix/fs_linux.rs) and proofs of its specification claims.

Modelling conventions:
* A file is a list of byte cells; a cell is `Option Nat`: `none` is an
  unallocated (hole) byte that reads as zero, `some b` is an allocated byte
  with value `b`.  The metadata fields `dev`, `blksize`, `blocks` mirror the
  stat fields the code consults (the filesystem reports `blocks`; the model
  stores it as given).
* The state `St` threads the two open files, their cursor positions (the
  implicit lseek cursors), the thread-local `HAS_COPY_FILE_RANGE` flag, a
  script `evs` of injected outcomes for the user-space read/write calls
  (an empty script means every call behaves normally), and a trace of which
  transfer path (kernel or user-space) each `copy_bytes` dispatch used.
* The outcome of the `copy_file_range` syscall is modelled by an oracle
  `kerr : Option Nat`: `none` means the syscall works (and transfers
  `min nbytes (size - cursor)` bytes, zero at end of file, exactly as the
  kernel does), `some e` means it fails with raw OS error `e`.
* Loops of the source are modelled with an explicit fuel argument; the
  wrapper functions pass enough fuel for every terminating execution, and a
  `none` result marks a run that exceeds the fuel (non-termination).
* `lseek` with `SEEK_DATA` / `SEEK_HOLE` is modelled by the pure queries
  `seekData` / `seekHole`; the `ENXIO` outcome of the real syscall is the
  `none` result (the code maps it to `SeekOff::EOF`).
-/

namespace FsLinux

/-- Raw OS error number for "function not implemented" on Linux. -/
def ENOSYS : Nat := 38

/-- Raw OS error number for "operation not permitted" on Linux. -/
def EPERM : Nat := 1

/-- Block size of the user-space copy buffer (`BLKSIZE` in
`copy_bytes_uspace`). -/
def BLKSIZE : Nat := 4 * 1024

/-- Error kinds surfaced by the module.  `invalidInput` is
`ErrorKind::InvalidInput` (source path is not a regular file),
`invalidData` is `ErrorKind::InvalidData` ("Source file ended
prematurely."), `interrupted` is `ErrorKind::Interrupted`, and `os e` is a
raw OS error with number `e` (the only kind for which `raw_os_error()`
returns a value, as in the dispatch of `copy_bytes`). -/
inductive IOErr where
  | invalidInput : IOErr
  | invalidData : IOErr
  | interrupted : IOErr
  | os (errno : Nat) : IOErr
deriving DecidableEq, Repr

/-- Which transfer strategy a `copy_bytes` dispatch used; recorded in a
trace so that temporal claims about the accelerated path can be stated. -/
inductive Path where
  | kernel : Path
  | uspace : Path
deriving DecidableEq, Repr

/-- Scripted outcome of one iteration of the user-space copy loop:
`ok` lets the read and write proceed normally, `rIntr` makes the read fail
with `ErrorKind::Interrupted`, `rErr e` makes the read fail with `e`, and
`wErr e` lets the read succeed but makes the following `write_all` fail
with `e`.  An exhausted script behaves as `ok` forever. -/
inductive Ev where
  | ok : Ev
  | rIntr : Ev
  | rErr (e : IOErr) : Ev
  | wErr (e : IOErr) : Ev
deriving DecidableEq, Repr

/-- An open regular file: its byte cells plus the stat metadata the code
reads.  A cell `none` is a hole byte (reads as 0), `some b` an allocated
byte. -/
structure FsFile where
  data : List (Option Nat)
  dev : Nat
  blksize : Nat
  blocks : Nat
  perm : Nat
deriving DecidableEq, Repr

/-- Logical length of the file (`metadata().len()`, `st_size`). -/
def FsFile.size (f : FsFile) : Nat := f.data.length

/-- The byte contents a sequential read of the whole file returns: holes
read as zero. -/
def readAll (f : FsFile) : List Nat := f.data.map (fun c => c.getD 0)

/-- Read up to `n` bytes at offset `pos` (fewer if the file ends first);
hole bytes read as zero. -/
def readAt (f : FsFile) (pos n : Nat) : List Nat :=
  ((f.data.drop pos).take n).map (fun c => c.getD 0)

/-- Overwrite the cells of `l` from offset `pos` with `d`, extending the
list (with hole cells) when the write reaches past its end; writing
nothing changes nothing.  This is the effect of a successful positional
write of `d`. -/
def writeAtL (l : List (Option Nat)) (pos : Nat) (d : List (Option Nat)) :
    List (Option Nat) :=
  if d = [] then l
  else
    let lp := l ++ List.replicate (pos + d.length - l.length) none
    lp.take pos ++ d ++ lp.drop (pos + d.length)

/-- Write the bytes `chunk` into `f` at offset `pos`; the written region
becomes allocated. -/
def fwrite (f : FsFile) (pos : Nat) (chunk : List Nat) : FsFile :=
  { f with data := writeAtL f.data pos (chunk.map some) }

/-- `lseek(fd, pos, SEEK_DATA)`: offset of the first allocated byte at or
after `pos`; `none` models the `ENXIO` outcome (no data before
end-of-file), which `lseek` in the code maps to `SeekOff::EOF`. -/
def seekData (f : FsFile) (pos : Nat) : Option Nat :=
  match (f.data.drop pos).findIdx? (fun c => c.isSome) with
  | some k => some (pos + k)
  | none => none

/-- `lseek(fd, pos, SEEK_HOLE)`: offset of the first hole byte at or after
`pos`, where the implicit hole at end-of-file counts; `none` models the
`ENXIO` outcome for a start position at or past end-of-file. -/
def seekHole (f : FsFile) (pos : Nat) : Option Nat :=
  if f.size ≤ pos then none
  else
    match (f.data.drop pos).findIdx? (fun c => c.isNone) with
    | some k => some (pos + k)
    | none => some f.size

/-- `allocate_file`: `ftruncate64` to length `len` — cut the file or
extend it with holes, writing no bytes. -/
def allocate_file (f : FsFile) (len : Nat) : FsFile :=
  { f with data := f.data.take len ++ List.replicate (len - f.data.length) none }

/-- The stat fields `copy_parms` consults. -/
structure Stat where
  st_size : Nat
  st_blocks : Nat
  st_blksize : Nat
  st_dev : Nat
deriving DecidableEq, Repr

/-- `metadata()` of an open file. -/
def statOf (f : FsFile) : Stat :=
  { st_size := f.data.length
    st_blocks := f.blocks
    st_blksize := f.blksize
    st_dev := f.dev }

/-- `copy_parms(infd, outfd)`: the pair (source is sparse, source and
destination are on different filesystems), computed exactly as in the
source: `st_blocks < st_size / st_blksize` (integer division) and
`st_dev != st_dev`. -/
def copy_parms (infd outfd : FsFile) : Bool × Bool :=
  let in_stat := statOf infd
  let out_stat := statOf outfd
  (decide (in_stat.st_blocks < in_stat.st_size / in_stat.st_blksize),
   decide (in_stat.st_dev ≠ out_stat.st_dev))

/-- The state threaded through a copy operation: the two open files, their
cursors, the thread-local `HAS_COPY_FILE_RANGE` flag, the script of
injected user-space I/O outcomes, and the trace of dispatched transfer
paths. -/
structure St where
  src : FsFile
  dst : FsFile
  sPos : Nat
  dPos : Nat
  cfr : Bool
  evs : List Ev
  trace : List Path
deriving DecidableEq, Repr

/-- Record that a transfer path was dispatched. -/
def pushPath (p : Path) (st : St) : St :=
  { st with trace := st.trace ++ [p] }

/-- `copy_bytes_kernel`: one `copy_file_range` request with null offsets —
the kernel transfers `min nbytes (size - cursor)` bytes (zero when the
source cursor is at or past end-of-file) from the source cursor to the
destination cursor and advances both. -/
def copy_bytes_kernel (st : St) (nbytes : Nat) : Nat × St :=
  let k := min nbytes (st.src.size - st.sPos)
  let chunk := readAt st.src st.sPos k
  (k, { st with dst := fwrite st.dst st.dPos chunk
              , sPos := st.sPos + k
              , dPos := st.dPos + k })

/-- The loop of `copy_bytes_uspace`: `while written < nbytes`, read up to
`min (nbytes - written) BLKSIZE` bytes at the source cursor and write them
at the destination cursor.  A zero-length read is the fatal
`InvalidData` ("Source file ended prematurely.") error; a read interrupted
by a signal (`rIntr`) is retried without counting any bytes; any other
read or write failure is returned.  The head of the `evs` script decides
the outcome of the calls of one iteration (missing script entries mean
normal behaviour).  `fuel` bounds the number of iterations; a `none`
result means the fuel ran out. -/
def copy_bytes_uspace_fuel :
    Nat → St → Nat → Nat → (Option (Except IOErr Nat)) × St
  | 0, st, _, _ => (none, st)
  | fuel+1, st, nbytes, written =>
    if written < nbytes then
      match st.evs with
      | Ev.rIntr :: rest =>
          copy_bytes_uspace_fuel fuel { st with evs := rest } nbytes written
      | Ev.rErr e :: rest =>
          (some (Except.error e), { st with evs := rest })
      | Ev.wErr e :: rest =>
          let chunk := readAt st.src st.sPos (min (nbytes - written) BLKSIZE)
          if chunk.length = 0 then
            (some (Except.error IOErr.invalidData), { st with evs := rest })
          else
            (some (Except.error e),
             { st with sPos := st.sPos + chunk.length, evs := rest })
      | Ev.ok :: rest =>
          let chunk := readAt st.src st.sPos (min (nbytes - written) BLKSIZE)
          if chunk.length = 0 then
            (some (Except.error IOErr.invalidData), { st with evs := rest })
          else
            copy_bytes_uspace_fuel fuel
              { st with dst := fwrite st.dst st.dPos chunk
                      , sPos := st.sPos + chunk.length
                      , dPos := st.dPos + chunk.length
                      , evs := rest }
              nbytes (written + chunk.length)
      | [] =>
          let chunk := readAt st.src st.sPos (min (nbytes - written) BLKSIZE)
          if chunk.length = 0 then
            (some (Except.error IOErr.invalidData), st)
          else
            copy_bytes_uspace_fuel fuel
              { st with dst := fwrite st.dst st.dPos chunk
                      , sPos := st.sPos + chunk.length
                      , dPos := st.dPos + chunk.length }
              nbytes (written + chunk.length)
    else (some (Except.ok written), st)

/-- `copy_bytes_uspace(reader, writer, nbytes)`.  Each loop iteration
either makes progress of at least one byte, terminates, or consumes one
script entry, so `nbytes + length of the script + 1` fuel always
suffices. -/
def copy_bytes_uspace (st : St) (nbytes : Nat) :
    (Option (Except IOErr Nat)) × St :=
  copy_bytes_uspace_fuel (nbytes + st.evs.length + 1) st nbytes 0

/-- `copy_bytes(reader, writer, uspace, nbytes)`: the dispatch between the
kernel-accelerated path and the user-space fallback.  The source loops;
after the flag is flipped the retry necessarily takes the fallback branch,
so the loop is unrolled here.  `kerr` is the oracle for the
`copy_file_range` outcome. -/
def copy_bytes (st : St) (uspace : Bool) (kerr : Option Nat) (nbytes : Nat) :
    (Option (Except IOErr Nat)) × St :=
  if uspace || !st.cfr then
    copy_bytes_uspace (pushPath Path.uspace st) nbytes
  else
    let st1 := pushPath Path.kernel st
    match kerr with
    | none =>
        let r := copy_bytes_kernel st1 nbytes
        (some (Except.ok r.1), r.2)
    | some e =>
        if e = ENOSYS ∨ e = EPERM then
          copy_bytes_uspace (pushPath Path.uspace { st1 with cfr := false }) nbytes
        else
          (some (Except.error (IOErr.os e)), st1)

/-- The loop of `copy_range`: repeat `copy_bytes` requests for the
remaining byte count until `len` bytes in total are transferred, then
return the total.  A failing attempt propagates its error.  A `none`
result means the fuel ran out (the loop did not terminate within
`fuel` iterations). -/
def copy_range_fuel :
    Nat → St → Bool → Option Nat → Nat → Nat → (Option (Except IOErr Nat)) × St
  | 0, st, _, _, _, _ => (none, st)
  | fuel+1, st, uspace, kerr, len, written =>
    if written < len then
      match copy_bytes st uspace kerr (len - written) with
      | (some (Except.ok n), st2) =>
          copy_range_fuel fuel st2 uspace kerr len (written + n)
      | (some (Except.error e), st2) => (some (Except.error e), st2)
      | (none, st2) => (none, st2)
    else (some (Except.ok written), st)

/-- `copy_range(infd, outfd, uspace, len)`: copy `len` bytes from the
current source cursor to the current destination cursor. -/
def copy_range (st : St) (uspace : Bool) (kerr : Option Nat) (len : Nat) :
    (Option (Except IOErr Nat)) × St :=
  copy_range_fuel (len + 1) st uspace kerr len 0

/-- `next_sparse_segments(fd, pos)`: the offset of the next data region at
or after `pos` and the offset of the hole that follows it; the `EOF`
outcomes collapse to the file length, exactly as in the source. -/
def next_sparse_segments (f : FsFile) (pos : Nat) : Nat × Nat :=
  let next_data := (seekData f pos).getD f.size
  let next_hole := (seekHole f next_data).getD f.size
  (next_data, next_hole)

/-- The loop of `copy_sparse`: while the walk position is below the source
length, find the next data segment, seek both files to its start, copy
exactly `next_hole - next_data` bytes, and advance the position to the
hole start. -/
def copy_sparse_fuel :
    Nat → St → Bool → Option Nat → Nat → Nat → (Option (Except IOErr Nat)) × St
  | 0, st, _, _, _, _ => (none, st)
  | fuel+1, st, uspace, kerr, len, pos =>
    if pos < len then
      let seg := next_sparse_segments st.src pos
      let st1 := { st with sPos := seg.1, dPos := seg.1 }
      match copy_range st1 uspace kerr (seg.2 - seg.1) with
      | (some (Except.ok _), st2) =>
          copy_sparse_fuel fuel st2 uspace kerr len seg.2
      | (some (Except.error e), st2) => (some (Except.error e), st2)
      | (none, st2) => (none, st2)
    else (some (Except.ok len), st)

/-- `copy_sparse(infd, outfd, uspace)`: set the destination length to the
source length without writing bytes, then walk the data segments from
position 0; returns the source length.  Each iteration strictly advances
the walk position, so `len + 1` fuel always suffices. -/
def copy_sparse (st : St) (uspace : Bool) (kerr : Option Nat) :
    (Option (Except IOErr Nat)) × St :=
  let len := st.src.size
  let st1 := { st with dst := allocate_file st.dst len }
  copy_sparse_fuel (len + 1) st1 uspace kerr len 0

/-- The world of one top-level `copy` invocation: whether the source path
names an existing regular file, the source file, the destination file as
it exists before the call, the thread-local flag, the user-space I/O
script and the path trace. -/
structure World where
  srcIsFile : Bool
  src : FsFile
  dst : FsFile
  cfr : Bool
  evs : List Ev
  trace : List Path
deriving DecidableEq, Repr

/-- `File::create(to)`: truncate the destination to length zero (or create
it empty), keeping its filesystem identity. -/
def fileCreate (f : FsFile) : FsFile := { f with data := [] }

/-- `copy(from, to)`: fail with `InvalidInput` when the source is not an
existing regular file (before touching anything); otherwise open the
source, create/truncate the destination, compute the copy parameters,
force the user-space strategy when the files are on different filesystems,
run the sparse orchestrator or a single full-length `copy_range`, set the
destination permissions from the source, and return the total byte
count. -/
def copy (w : World) (kerr : Option Nat) : (Option (Except IOErr Nat)) × World :=
  if !w.srcIsFile then
    (some (Except.error IOErr.invalidInput), w)
  else
    let infd := w.src
    let outfd := fileCreate w.dst
    let parms := copy_parms infd outfd
    let is_sparse := parms.1
    let uspace := parms.2
    let st0 : St :=
      { src := infd, dst := outfd, sPos := 0, dPos := 0
      , cfr := w.cfr, evs := w.evs, trace := w.trace }
    let r :=
      if is_sparse then copy_sparse st0 uspace kerr
      else copy_range st0 uspace kerr infd.size
    match r with
    | (some (Except.ok total), st2) =>
        (some (Except.ok total),
         { srcIsFile := w.srcIsFile, src := st2.src
         , dst := { st2.dst with perm := st2.src.perm }
         , cfr := st2.cfr, evs := st2.evs, trace := st2.trace })
    | (some (Except.error e), st2) =>
        (some (Except.error e),
         { srcIsFile := w.srcIsFile, src := st2.src, dst := st2.dst
         , cfr := st2.cfr, evs := st2.evs, trace := st2.trace })
    | (none, st2) =>
        (none,
         { srcIsFile := w.srcIsFile, src := st2.src, dst := st2.dst
         , cfr := st2.cfr, evs := st2.evs, trace := st2.trace })

/-- Initial value of the thread-local `HAS_COPY_FILE_RANGE` flag
(`RefCell::new(true)`). -/
def HAS_COPY_FILE_RANGE_init : Bool := true

/-- A sequence of `copy_bytes` calls in one execution context, threading
the state (and with it the thread-local flag) through the calls; each list
entry gives the `uspace` argument, the kernel oracle and the byte count of
one call. -/
def runCopyBytesSeq (st : St) : List (Bool × Option Nat × Nat) → St
  | [] => st
  | c :: rest => runCopyBytesSeq (copy_bytes st c.1 c.2.1 c.2.2).2 rest

/-- Decidable equality of copy results, so that concrete runs of the model
can be checked by evaluation. -/
instance : DecidableEq (Except IOErr Nat) := fun a b =>
  match a, b with
  | Except.ok x, Except.ok y =>
      if h : x = y then isTrue (by rw [h])
      else isFalse (fun hc => by cases hc; exact h rfl)
  | Except.error x, Except.error y =>
      if h : x = y then isTrue (by rw [h])
      else isFalse (fun hc => by cases hc; exact h rfl)
  | Except.ok _, Except.error _ => isFalse (fun hc => by cases hc)
  | Except.error _, Except.ok _ => isFalse (fun hc => by cases hc)

/-! ### Concrete files, states and worlds used to exercise the model -/

/-- A two-byte source file with no holes, on device 7. -/
def srcNoHole : FsFile :=
  { data := [some 3, some 1], dev := 7, blksize := 4096, blocks := 1, perm := 6 }

/-- A pre-existing destination file on device 7. -/
def dstPlain : FsFile :=
  { data := [some 9], dev := 7, blksize := 4096, blocks := 1, perm := 0 }

/-- World for a plain same-filesystem copy of a file with no holes. -/
def wNoHole : World :=
  { srcIsFile := true, src := srcNoHole, dst := dstPlain
  , cfr := true, evs := [], trace := [] }

/-- A five-byte sparse source file: a leading hole, three data bytes with a
hole in the middle. -/
def srcSparse : FsFile :=
  { data := [none, some 5, some 6, none, some 7], dev := 7, blksize := 1
  , blocks := 2, perm := 4 }

/-- State for a sparse copy into a freshly created destination. -/
def stSparse : St :=
  { src := srcSparse
  , dst := { data := [], dev := 7, blksize := 1, blocks := 0, perm := 0 }
  , sPos := 0, dPos := 0, cfr := true, evs := [], trace := [] }

/-- World for a cross-filesystem copy: source on device 7, destination on
device 8. -/
def wCross : World :=
  { srcIsFile := true, src := srcNoHole
  , dst := { data := [], dev := 8, blksize := 4096, blocks := 0, perm := 0 }
  , cfr := true, evs := [], trace := [] }

/-- A small state used to exercise the `copy_bytes` dispatch. -/
def stDispatch : St :=
  { src := srcNoHole, dst := dstPlain, sPos := 0, dPos := 0
  , cfr := true, evs := [], trace := [] }

/-- World whose source path does not name an existing regular file. -/
def wNoSource : World :=
  { srcIsFile := false, src := srcNoHole, dst := dstPlain
  , cfr := true, evs := [], trace := [] }

/-- State used to exercise the read-outcome handling of the user-space
copier. -/
def stEvents : St :=
  { src := srcNoHole, dst := dstPlain, sPos := 0, dPos := 0
  , cfr := true, evs := [Ev.rIntr, Ev.ok], trace := [] }

/-- State with an empty source file and the kernel path enabled, on which
the `copy_range` loop never terminates. -/
def stEmptySrc : St :=
  { src := { data := [], dev := 7, blksize := 4096, blocks := 0, perm := 0 }
  , dst := { data := [], dev := 7, blksize := 4096, blocks := 0, perm := 0 }
  , sPos := 0, dPos := 0, cfr := true, evs := [], trace := [] }

/-- A file of 4097 bytes whose last byte is a hole: 4096 bytes (eight
512-byte sectors) are allocated, so `st_blocks = 8` while
`st_size / st_blksize = 4097 / 4096 = 1` rounds down and the sparse
heuristic classifies the file as not sparse. -/
def edgeFile : FsFile :=
  { data := List.replicate 4096 (some 0) ++ [none], dev := 0, blksize := 4096
  , blocks := 8, perm := 0 }

/-- A one-byte file with block size 1 and no allocated blocks reported. -/
def tinySparse : FsFile :=
  { data := [some 1], dev := 3, blksize := 1, blocks := 0, perm := 0 }

/-- A file on a different device than `tinySparse`. -/
def tinyOther : FsFile :=
  { data := [], dev := 4, blksize := 1, blocks := 0, perm := 0 }

/-! ### List-level helper lemmas about positional writes and reads -/

theorem writeAtL_nil (l : List (Option Nat)) (pos : Nat) : writeAtL l pos [] = l := rfl

theorem writeAtL_getElem? (l d : List (Option Nat)) (pos i : Nat) (h : d ≠ []) :
    (writeAtL l pos d)[i]? =
      if pos ≤ i ∧ i < pos + d.length then d[i - pos]?
      else if i < l.length then l[i]?
      else if i < pos then some none else none := by
  have hd : 0 < d.length := List.length_pos.mpr h
  unfold writeAtL
  rw [if_neg h]
  simp only [List.getElem?_append, List.getElem?_take, List.getElem?_drop,
    List.getElem?_replicate, List.length_take, List.length_append,
    List.length_replicate, List.append_assoc]
  split_ifs <;> first | rfl | (exfalso; omega) | (congr 1 <;> omega)

theorem writeAtL_length (l d : List (Option Nat)) (pos : Nat) (h : d ≠ []) :
    (writeAtL l pos d).length = max l.length (pos + d.length) := by
  have hd : 0 < d.length := List.length_pos.mpr h
  unfold writeAtL
  rw [if_neg h]
  simp only [List.length_append, List.length_take, List.length_drop,
    List.length_replicate]
  omega

theorem writeAtL_append (l a b : List (Option Nat)) (p : Nat) :
    writeAtL (writeAtL l p a) (p + a.length) b = writeAtL l p (a ++ b) := by
  by_cases ha : a = []
  · subst ha; simp [writeAtL_nil]
  by_cases hb : b = []
  · subst hb; simp [writeAtL_nil]
  have hab : a ++ b ≠ [] := by simp [ha]
  apply List.ext_getElem?
  intro i
  rw [writeAtL_getElem? _ _ _ _ hb, writeAtL_getElem? _ _ _ _ hab,
    writeAtL_getElem? _ _ _ _ ha, writeAtL_length _ _ _ ha]
  have hla : 0 < a.length := List.length_pos.mpr ha
  have hlb : 0 < b.length := List.length_pos.mpr hb
  rw [show (a ++ b)[i - p]? = if i - p < a.length then a[i - p]? else b[i - p - a.length]? from List.getElem?_append]
  simp only [List.length_append]
  split_ifs <;> first | rfl | (exfalso; omega) | (congr 1 <;> omega)

theorem readAt_length (f : FsFile) (pos n : Nat) :
    (readAt f pos n).length = min n (f.size - pos) := by
  simp [readAt, FsFile.size, List.length_take, List.length_drop]

theorem readAt_zero (f : FsFile) (pos : Nat) : readAt f pos 0 = [] := by
  simp [readAt]

theorem readAt_self_length (f : FsFile) (pos n : Nat) :
    readAt f pos (readAt f pos n).length = readAt f pos n := by
  rw [readAt_length]
  unfold readAt FsFile.size
  congr 1
  rw [List.take_eq_take, List.length_drop]
  omega

theorem readAt_add (f : FsFile) (pos a b : Nat) :
    readAt f pos (a + b) = readAt f pos a ++ readAt f (pos + a) b := by
  unfold readAt
  rw [← List.map_append]
  congr 1
  rw [List.take_add, ← List.drop_drop]

theorem map_getD_map_some (L : List Nat) :
    (L.map some).map (fun c => c.getD 0) = L := by
  simp [List.map_map, Function.comp_def]

theorem map_some_readAt (f : FsFile) (pos n : Nat)
    (h : ∀ i, pos ≤ i → i < pos + n → ∃ b, f.data[i]? = some (some b)) :
    (readAt f pos n).map some = (f.data.drop pos).take n := by
  unfold readAt
  rw [List.map_map]
  apply List.ext_getElem?
  intro i
  rw [List.getElem?_map, List.getElem?_take]
  by_cases hi : i < n
  · rw [if_pos hi, List.getElem?_drop]
    by_cases hb : pos + i < f.data.length
    · obtain ⟨b, hbb⟩ := h (pos + i) (by omega) (by omega)
      rw [hbb]; rfl
    · rw [List.getElem?_eq_none (show f.data.length ≤ pos + i by omega)]; rfl
  · rw [if_neg hi]; rfl

/-! ### Properties of the extent queries -/

theorem seekData_some (f : FsFile) (pos k : Nat) (h : seekData f pos = some k) :
    pos ≤ k ∧ k < f.size ∧ (∃ b, f.data[k]? = some (some b)) ∧
      ∀ i, pos ≤ i → i < k → f.data[i]? = some none := by
  unfold seekData at h
  cases hf : (f.data.drop pos).findIdx? (fun c => c.isSome) with
  | none => rw [hf] at h; exact absurd h (by simp)
  | some k0 =>
    rw [hf] at h
    simp only [Option.some.injEq] at h
    subst h
    obtain ⟨hk0, hp, hprev⟩ := List.findIdx?_eq_some_iff_getElem.mp hf
    rw [List.length_drop] at hk0
    refine ⟨by omega, by unfold FsFile.size; omega, ?_, ?_⟩
    · obtain ⟨b, hb⟩ := Option.isSome_iff_exists.mp hp
      refine ⟨b, ?_⟩
      have : (f.data.drop pos)[k0]? = some (some b) := by
        rw [List.getElem?_eq_getElem (by rw [List.length_drop]; omega), hb]
      rwa [List.getElem?_drop] at this
    · intro i hpi hik
      have hj : i - pos < k0 := by omega
      have hjlt : i - pos < (f.data.drop pos).length := by
        rw [List.length_drop]; omega
      have hne := hprev (i - pos) hj
      have hnone : (f.data.drop pos)[i - pos] = none := by
        cases hx : (f.data.drop pos)[i - pos] with
        | none => rfl
        | some b => rw [hx] at hne; simp at hne
      have : (f.data.drop pos)[i - pos]? = some none := by
        rw [List.getElem?_eq_getElem hjlt, hnone]
      rw [List.getElem?_drop] at this
      have heq : pos + (i - pos) = i := by omega
      rwa [heq] at this

theorem seekData_none (f : FsFile) (pos : Nat) (h : seekData f pos = none) :
    ∀ i, pos ≤ i → i < f.size → f.data[i]? = some none := by
  unfold seekData at h
  cases hf : (f.data.drop pos).findIdx? (fun c => c.isSome) with
  | some k0 => rw [hf] at h; exact absurd h (by simp)
  | none =>
    intro i hpi hisz
    have hall := List.findIdx?_eq_none_iff.mp hf
    have hjlt : i - pos < (f.data.drop pos).length := by
      rw [List.length_drop]; unfold FsFile.size at hisz; omega
    have hmem : (f.data.drop pos)[i - pos] ∈ f.data.drop pos :=
      List.getElem_mem hjlt
    have hne := hall _ hmem
    have hnone : (f.data.drop pos)[i - pos] = none := by
      cases hx : (f.data.drop pos)[i - pos] with
      | none => rfl
      | some b => rw [hx] at hne; simp at hne
    have : (f.data.drop pos)[i - pos]? = some none := by
      rw [List.getElem?_eq_getElem hjlt, hnone]
    rw [List.getElem?_drop] at this
    have heq : pos + (i - pos) = i := by omega
    rwa [heq] at this

theorem seekHole_some (f : FsFile) (pos k : Nat) (h : seekHole f pos = some k) :
    pos ≤ k ∧ k ≤ f.size ∧
      ∀ i, pos ≤ i → i < k → ∃ b, f.data[i]? = some (some b) := by
  unfold seekHole at h
  by_cases hsz : f.size ≤ pos
  · rw [if_pos hsz] at h; exact absurd h (by simp)
  rw [if_neg hsz] at h
  have hdata : ∀ (j : Nat) (hj : j < (f.data.drop pos).length),
      ¬((f.data.drop pos)[j]).isNone = true →
      ∃ b, f.data[pos + j]? = some (some b) := by
    intro j hj hne
    cases hx : (f.data.drop pos)[j] with
    | none => rw [hx] at hne; simp at hne
    | some b =>
      refine ⟨b, ?_⟩
      have : (f.data.drop pos)[j]? = some (some b) := by
        rw [List.getElem?_eq_getElem hj, hx]
      rwa [List.getElem?_drop] at this
  cases hf : (f.data.drop pos).findIdx? (fun c => c.isNone) with
  | some k0 =>
    rw [hf] at h
    simp only [Option.some.injEq] at h
    subst h
    obtain ⟨hk0, _, hprev⟩ := List.findIdx?_eq_some_iff_getElem.mp hf
    refine ⟨by omega, ?_, ?_⟩
    · rw [List.length_drop] at hk0; unfold FsFile.size; omega
    · intro i hpi hik
      obtain ⟨b, hb⟩ := hdata (i - pos) (by rw [List.length_drop] at hk0 ⊢; omega)
        (hprev (i - pos) (by omega))
      refine ⟨b, ?_⟩
      have heq : pos + (i - pos) = i := by omega
      rwa [heq] at hb
  | none =>
    rw [hf] at h
    simp only [Option.some.injEq] at h
    subst h
    have hall := List.findIdx?_eq_none_iff.mp hf
    refine ⟨by omega, le_refl _, ?_⟩
    intro i hpi hik
    have hjlt : i - pos < (f.data.drop pos).length := by
      rw [List.length_drop]; unfold FsFile.size at hik; omega
    have hne := hall _ (List.getElem_mem hjlt)
    obtain ⟨b, hb⟩ := hdata (i - pos) hjlt (by rw [hne]; simp)
    refine ⟨b, ?_⟩
    have heq : pos + (i - pos) = i := by omega
    rwa [heq] at hb

theorem seekHole_isSome (f : FsFile) (pos : Nat) (hlt : pos < f.size) :
    ∃ k, seekHole f pos = some k := by
  unfold seekHole
  rw [if_neg (by omega)]
  cases (f.data.drop pos).findIdx? (fun c => c.isNone) <;> simp

theorem seekHole_gt (f : FsFile) (pos k : Nat) (hlt : pos < f.size)
    (hdata : ∃ b, f.data[pos]? = some (some b)) (h : seekHole f pos = some k) :
    pos < k := by
  unfold seekHole at h
  rw [if_neg (by omega)] at h
  cases hf : (f.data.drop pos).findIdx? (fun c => c.isNone) with
  | none =>
    rw [hf] at h
    simp only [Option.some.injEq] at h
    omega
  | some k0 =>
    rw [hf] at h
    simp only [Option.some.injEq] at h
    subst h
    obtain ⟨hk0, hp, _⟩ := List.findIdx?_eq_some_iff_getElem.mp hf
    rcases Nat.eq_zero_or_pos k0 with h0 | h0
    · subst h0
      obtain ⟨b, hb⟩ := hdata
      have : (f.data.drop pos)[0]? = f.data[pos]? := by
        simp [List.getElem?_drop]
      rw [hb, List.getElem?_eq_getElem hk0] at this
      simp only [Option.some.injEq] at this
      rw [this] at hp
      simp at hp
    · omega

theorem next_sparse_segments_spec (f : FsFile) (pos nd nh : Nat)
    (hpos : pos < f.size) (h : next_sparse_segments f pos = (nd, nh)) :
    pos ≤ nd ∧ nd ≤ nh ∧ nh ≤ f.size ∧ pos < nh ∧
      (∀ i, pos ≤ i → i < nd → f.data[i]? = some none) ∧
      (∀ i, nd ≤ i → i < nh → ∃ b, f.data[i]? = some (some b)) := by
  unfold next_sparse_segments at h
  simp only [Prod.mk.injEq] at h
  obtain ⟨hnd, hnh⟩ := h
  cases hsd : seekData f pos with
  | none =>
    rw [hsd] at hnd hnh
    simp only [Option.getD_none] at hnd hnh
    have hnone : seekHole f f.size = none := by
      unfold seekHole
      rw [if_pos (le_refl _)]
    rw [hnone] at hnh
    simp only [Option.getD_none] at hnh
    rw [← hnd, ← hnh]
    refine ⟨by omega, le_refl _, le_refl _, hpos, ?_, ?_⟩
    · exact fun i h1 h2 => seekData_none f pos hsd i h1 h2
    · intro i h1 h2; omega
  | some k =>
    rw [hsd] at hnd hnh
    simp only [Option.getD_some] at hnd hnh
    rw [hnd] at hsd hnh
    obtain ⟨hk1, hk2, hk3, hk4⟩ := seekData_some f pos nd hsd
    obtain ⟨k2, hk⟩ := seekHole_isSome f nd hk2
    rw [hk] at hnh
    simp only [Option.getD_some] at hnh
    rw [hnh] at hk
    obtain ⟨hh1, hh2, hh3⟩ := seekHole_some f nd nh hk
    have hgt : nd < nh := seekHole_gt f nd nh hk2 hk3 hk
    exact ⟨hk1, by omega, hh2, by omega, hk4, hh3⟩

/-- Element lookup in the canonical intermediate destination shape of the
sparse walk: the source cells up to `p` followed by holes up to `len`. -/
theorem canon_getElem? (src : FsFile) (p len i : Nat) (hp : p ≤ len)
    (hlen : len = src.data.length) :
    (src.data.take p ++ List.replicate (len - p) none)[i]? =
      if i < p then src.data[i]? else if i < len then some none else none := by
  rw [List.getElem?_append, List.getElem?_take, List.getElem?_replicate]
  simp only [List.length_take]
  split_ifs <;> first | rfl | (exfalso; omega)

/-- One segment of the sparse walk re-establishes the loop invariant: if
the destination so far replicates the source up to `pos` and is all holes
beyond, the bytes `[pos, nd)` of the source are holes and `[nd, nh)` are
data, then writing the data segment at `nd` makes the destination
replicate the source up to `nh`. -/
theorem sparse_inv_step (src : FsFile) (dstD : List (Option Nat))
    (pos nd nh len : Nat)
    (hlen : len = src.size) (h1 : pos ≤ nd) (h2 : nd ≤ nh) (h3 : nh ≤ len)
    (hP4 : ∀ i, pos ≤ i → i < nd → src.data[i]? = some none)
    (hP5 : ∀ i, nd ≤ i → i < nh → ∃ b, src.data[i]? = some (some b))
    (hdst : dstD = src.data.take pos ++ List.replicate (len - pos) none) :
    writeAtL dstD nd ((readAt src nd (nh - nd)).map some)
      = src.data.take nh ++ List.replicate (len - nh) none := by
  unfold FsFile.size at hlen
  have hseg : (readAt src nd (nh - nd)).map some
      = (src.data.drop nd).take (nh - nd) :=
    map_some_readAt src nd (nh - nd) (by intro i hi1 hi2; exact hP5 i hi1 (by omega))
  rw [hseg]
  have hseglen : ((src.data.drop nd).take (nh - nd)).length = nh - nd := by
    rw [List.length_take, List.length_drop]; omega
  have hdstlen : dstD.length = len := by
    rw [hdst, List.length_append, List.length_take, List.length_replicate]; omega
  have hdstElem : ∀ j, dstD[j]? =
      if j < pos then src.data[j]? else if j < len then some none else none := by
    intro j
    rw [hdst, canon_getElem? src pos len j (by omega) hlen]
  apply List.ext_getElem?
  intro i
  rw [canon_getElem? src nh len i (by omega) hlen]
  by_cases hempty : nh - nd = 0
  · rw [hempty]
    simp only [List.take_zero, writeAtL_nil]
    rw [hdstElem i]
    split_ifs <;>
      first | rfl | (exfalso; omega) | (rw [hP4 i (by omega) (by omega)])
  · have hne : (src.data.drop nd).take (nh - nd) ≠ [] := by
      intro hc
      rw [← List.length_eq_zero] at hc
      omega
    rw [writeAtL_getElem? _ _ _ _ hne, hseglen, hdstlen]
    by_cases hseg2 : nd ≤ i ∧ i < nd + (nh - nd)
    · rw [if_pos hseg2, if_pos (show i < nh by omega), List.getElem?_take,
        if_pos (by omega), List.getElem?_drop]
      congr 1
      omega
    · rw [if_neg hseg2, hdstElem i]
      split_ifs <;>
        first | rfl | (exfalso; omega) | (rw [hP4 i (by omega) (by omega)])


theorem uspace_frame (fuel : Nat) : ∀ (st : St) (n w : Nat),
    (copy_bytes_uspace_fuel fuel st n w).2.src = st.src ∧
    (copy_bytes_uspace_fuel fuel st n w).2.cfr = st.cfr ∧
    (copy_bytes_uspace_fuel fuel st n w).2.trace = st.trace := by
  induction fuel with
  | zero => intro st n w; simp [copy_bytes_uspace_fuel]
  | succ f ih =>
    intro st n w
    simp only [copy_bytes_uspace_fuel]
    split
    · split
      · exact ih _ _ _
      · simp
      · split
        · simp
        · simp
      · split
        · simp
        · exact ih _ _ _
      · split
        · simp
        · exact ih _ _ _
    · simp

theorem uspace_loop_ok (fuel : Nat) : ∀ (st : St) (n w v : Nat) (st2 : St),
    copy_bytes_uspace_fuel fuel st n w = (some (Except.ok v), st2) → w ≤ n →
    v = n ∧
    st2.sPos = st.sPos + (n - w) ∧
    st2.dPos = st.dPos + (n - w) ∧
    st2.dst.data
      = writeAtL st.dst.data st.dPos ((readAt st.src st.sPos (n - w)).map some) ∧
    (st.evs = [] → st2.evs = []) ∧
    (w < n → st.sPos + (n - w) ≤ st.src.size) := by
  induction fuel with
  | zero =>
    intro st n w v st2 h hw
    simp [copy_bytes_uspace_fuel] at h
  | succ f ih =>
    intro st n w v st2 h hw
    rw [copy_bytes_uspace_fuel] at h
    split at h
    · -- written < nbytes; the match on st.evs
      rename_i hlt
      split at h
      · -- rIntr
        rename_i x rest heq
        obtain ⟨g1, g2, g3, g4, g5, g6⟩ := ih _ _ _ _ _ h hw
        refine ⟨g1, g2, g3, g4, ?_, g6⟩
        intro he
        rw [heq] at he
        cases he
      · -- rErr
        simp at h
      · -- wErr
        simp only [] at h
        split at h <;> simp at h
      · -- ok
        rename_i x rest heq
        simp only [] at h
        split at h
        · simp at h
        · rename_i hc0
          have hclen : (readAt st.src st.sPos ((n - w) ⊓ BLKSIZE)).length
              = min ((n - w) ⊓ BLKSIZE) (st.src.size - st.sPos) :=
            readAt_length st.src st.sPos ((n - w) ⊓ BLKSIZE)
          obtain ⟨g1, g2, g3, g4, g5, g6⟩ := ih _ _ _ _ _ h (by omega)
          dsimp only at g2 g3 g4 g6
          have hCr : readAt st.src st.sPos
                ((readAt st.src st.sPos ((n - w) ⊓ BLKSIZE)).length)
              = readAt st.src st.sPos ((n - w) ⊓ BLKSIZE) :=
            readAt_self_length st.src st.sPos ((n - w) ⊓ BLKSIZE)
          refine ⟨g1, by rw [g2]; omega, by rw [g3]; omega, ?_, ?_, ?_⟩
          · rw [g4]
            have hfw : (fwrite st.dst st.dPos
                  (readAt st.src st.sPos ((n - w) ⊓ BLKSIZE))).data
                = writeAtL st.dst.data st.dPos
                  ((readAt st.src st.sPos ((n - w) ⊓ BLKSIZE)).map some) := rfl
            rw [hfw]
            generalize hgC : readAt st.src st.sPos ((n - w) ⊓ BLKSIZE) = C
              at hCr hclen hc0 ⊢
            generalize hgc : C.length = c at hCr hclen hc0 ⊢
            rw [show st.dPos + c = st.dPos + (C.map some).length
                by rw [List.length_map, hgc]]
            rw [writeAtL_append, ← List.map_append]
            congr 2
            rw [← hCr, ← readAt_add]
            congr 1
            omega
          · intro he
            rw [heq] at he
            cases he
          · intro hlt2
            rcases Nat.lt_or_ge (w + (readAt st.src st.sPos ((n - w) ⊓ BLKSIZE)).length) n
              with hx | hx
            · have := g6 hx
              omega
            · omega
      · -- nil
        rename_i x heq
        simp only [] at h
        split at h
        · simp at h
        · rename_i hc0
          have hclen : (readAt st.src st.sPos ((n - w) ⊓ BLKSIZE)).length
              = min ((n - w) ⊓ BLKSIZE) (st.src.size - st.sPos) :=
            readAt_length st.src st.sPos ((n - w) ⊓ BLKSIZE)
          obtain ⟨g1, g2, g3, g4, g5, g6⟩ := ih _ _ _ _ _ h (by omega)
          dsimp only at g2 g3 g4 g6
          have hCr : readAt st.src st.sPos
                ((readAt st.src st.sPos ((n - w) ⊓ BLKSIZE)).length)
              = readAt st.src st.sPos ((n - w) ⊓ BLKSIZE) :=
            readAt_self_length st.src st.sPos ((n - w) ⊓ BLKSIZE)
          refine ⟨g1, by rw [g2]; omega, by rw [g3]; omega, ?_, ?_, ?_⟩
          · rw [g4]
            have hfw : (fwrite st.dst st.dPos
                  (readAt st.src st.sPos ((n - w) ⊓ BLKSIZE))).data
                = writeAtL st.dst.data st.dPos
                  ((readAt st.src st.sPos ((n - w) ⊓ BLKSIZE)).map some) := rfl
            rw [hfw]
            generalize hgC : readAt st.src st.sPos ((n - w) ⊓ BLKSIZE) = C
              at hCr hclen hc0 ⊢
            generalize hgc : C.length = c at hCr hclen hc0 ⊢
            rw [show st.dPos + c = st.dPos + (C.map some).length
                by rw [List.length_map, hgc]]
            rw [writeAtL_append, ← List.map_append]
            congr 2
            rw [← hCr, ← readAt_add]
            congr 1
            omega
          · exact fun he => g5 he
          · intro hlt2
            rcases Nat.lt_or_ge (w + (readAt st.src st.sPos ((n - w) ⊓ BLKSIZE)).length) n
              with hx | hx
            · have := g6 hx
              omega
            · omega
    · -- base: written >= nbytes
      rename_i hlt
      have hfst : some (Except.ok w) = some (Except.ok v) := congrArg Prod.fst h
      have hsnd : st = st2 := congrArg Prod.snd h
      simp only [Option.some.injEq, Except.ok.injEq] at hfst
      have hwn : w = n := by omega
      refine ⟨by omega, ?_, ?_, ?_, ?_, ?_⟩
      · rw [← hsnd]; omega
      · rw [← hsnd]; omega
      · rw [← hsnd]
        rw [show n - w = 0 by omega, readAt_zero]
        simp [writeAtL_nil]
      · intro he
        rw [← hsnd]
        exact he
      · intro hlt2
        omega


theorem uspace_complete (fuel : Nat) : ∀ (st : St) (n w : Nat),
    st.evs = [] → w ≤ n → st.sPos + (n - w) ≤ st.src.size → n - w < fuel →
    (copy_bytes_uspace_fuel fuel st n w).1 = some (Except.ok n) := by
  induction fuel with
  | zero => intro st n w _ _ _ hf; omega
  | succ f ih =>
    intro st n w hevs hw hsz hf
    rw [copy_bytes_uspace_fuel]
    by_cases hlt : w < n
    · rw [if_pos hlt, hevs]
      have hclen := readAt_length st.src st.sPos (min (n - w) BLKSIZE)
      have hB : 0 < BLKSIZE := by norm_num [BLKSIZE]
      dsimp only
      rw [if_neg (by omega)]
      exact ih _ n (w + (readAt st.src st.sPos ((n - w) ⊓ BLKSIZE)).length)
        rfl (by omega) (by dsimp only; omega) (by omega)
    · rw [if_neg hlt]
      have : w = n := by omega
      rw [this]

theorem uspace_short_err (fuel : Nat) : ∀ (st : St) (n w : Nat),
    st.evs = [] → w < n → st.src.size < st.sPos + (n - w) → n - w < fuel →
    (copy_bytes_uspace_fuel fuel st n w).1
      = some (Except.error IOErr.invalidData) := by
  induction fuel with
  | zero => intro st n w _ _ _ hf; omega
  | succ f ih =>
    intro st n w hevs hlt hshort hf
    rw [copy_bytes_uspace_fuel, if_pos hlt, hevs]
    have hclen := readAt_length st.src st.sPos (min (n - w) BLKSIZE)
    have hB : 0 < BLKSIZE := by norm_num [BLKSIZE]
    dsimp only
    by_cases hc : (readAt st.src st.sPos ((n - w) ⊓ BLKSIZE)).length = 0
    · rw [if_pos hc]
    · rw [if_neg hc]
      exact ih _ n (w + (readAt st.src st.sPos ((n - w) ⊓ BLKSIZE)).length)
        rfl (by omega) (by dsimp only; omega) (by omega)

theorem copy_bytes_ok (st : St) (uspace : Bool) (kerr : Option Nat)
    (n v : Nat) (st2 : St)
    (h : copy_bytes st uspace kerr n = (some (Except.ok v), st2)) :
    v ≤ n ∧ st2.src = st.src ∧ (st2.cfr = true → st.cfr = true) ∧
    st2.sPos = st.sPos + v ∧ st2.dPos = st.dPos + v ∧
    st2.dst.data
      = writeAtL st.dst.data st.dPos ((readAt st.src st.sPos v).map some) ∧
    (st.evs = [] → st2.evs = []) ∧
    (st.sPos ≤ st.src.size → st.sPos + v ≤ st.src.size) := by
  rw [copy_bytes] at h
  split at h
  · -- fallback branch
    have hfr := uspace_frame (n + (pushPath Path.uspace st).evs.length + 1)
      (pushPath Path.uspace st) n 0
    rw [copy_bytes_uspace] at h
    obtain ⟨g1, g2, g3, g4, g5, g6⟩ :=
      uspace_loop_ok _ _ _ _ _ _ h (Nat.zero_le n)
    rw [h] at hfr
    dsimp only [pushPath] at hfr g2 g3 g4 g5 g6
    refine ⟨by omega, hfr.1, fun hc => by rw [← hfr.2.1]; exact hc, ?_, ?_, ?_, ?_, ?_⟩
    · rw [g2]; omega
    · rw [g3]; omega
    · rw [g4, g1]; rfl
    · exact fun he => g5 he
    · intro hle
      rcases Nat.eq_zero_or_pos n with hn | hn
      · omega
      · have := g6 (by omega)
        omega
  · -- kernel branch attempted
    rename_i hdisp
    split at h
    · -- kerr = none
      have hfst : some (Except.ok (min n (st.src.size - st.sPos)))
          = some (Except.ok v) := congrArg Prod.fst h
      have hsnd := congrArg Prod.snd h
      simp only [Option.some.injEq, Except.ok.injEq] at hfst
      dsimp only [copy_bytes_kernel, pushPath] at hsnd
      subst hsnd
      refine ⟨by omega, rfl, fun hc => hc,
        by first | (dsimp only; omega) | omega,
        by first | (dsimp only; omega) | omega, ?_, fun he => he,
        by first | (dsimp only; omega) | omega⟩
      dsimp only [fwrite]
      rw [← hfst]
    · -- kerr = some e
      rename_i e
      split at h
      · -- ENOSYS or EPERM: retried on the fallback path with the flag false
        have hfr := uspace_frame
          (n + (pushPath Path.uspace
              { pushPath Path.kernel st with cfr := false }).evs.length + 1)
          (pushPath Path.uspace { pushPath Path.kernel st with cfr := false }) n 0
        rw [copy_bytes_uspace] at h
        obtain ⟨g1, g2, g3, g4, g5, g6⟩ :=
          uspace_loop_ok _ _ _ _ _ _ h (Nat.zero_le n)
        rw [h] at hfr
        dsimp only [pushPath] at hfr g2 g3 g4 g5 g6
        have hcfr : st2.cfr = false := hfr.2.1
        refine ⟨by omega, hfr.1, fun hc => absurd (hcfr ▸ hc) (by simp),
          ?_, ?_, ?_, ?_, ?_⟩
        · rw [g2]; omega
        · rw [g3]; omega
        · rw [g4, g1]; rfl
        · exact fun he => g5 he
        · intro hle
          rcases Nat.eq_zero_or_pos n with hn | hn
          · omega
          · have := g6 (by omega)
            omega
      · -- other raw OS error: returned unchanged
        simp at h


theorem copy_bytes_complete (st : St) (uspace : Bool) (kerr : Option Nat) (n : Nat)
    (hevs : st.evs = [])
    (hben : uspace = true ∨ st.cfr = false ∨ kerr = none ∨
      kerr = some ENOSYS ∨ kerr = some EPERM)
    (hsz : st.sPos + n ≤ st.src.size) :
    (copy_bytes st uspace kerr n).1 = some (Except.ok n) := by
  rw [copy_bytes]
  split
  · rw [copy_bytes_uspace]
    exact uspace_complete _ _ _ _ hevs (Nat.zero_le n)
      (by dsimp only [pushPath]; omega)
      (by dsimp only [pushPath]; rw [hevs]; simp)
  · rename_i hdisp
    have hcfr : st.cfr = true := by
      by_contra hc
      simp [Bool.not_eq_true] at hc
      simp [hc] at hdisp
    have husp : uspace = false := by
      by_contra hc
      simp [Bool.not_eq_false] at hc
      simp [hc] at hdisp
    split
    · dsimp only [copy_bytes_kernel, pushPath]
      congr 2
      omega
    · rename_i e
      have he2 : e = ENOSYS ∨ e = EPERM := by
        rcases hben with h | h | h | h | h
        · rw [husp] at h; cases h
        · rw [hcfr] at h; cases h
        all_goals simp_all
      rw [if_pos he2, copy_bytes_uspace]
      exact uspace_complete _ _ _ _ hevs (Nat.zero_le n)
        (by dsimp only [pushPath]; omega)
        (by dsimp only [pushPath]; rw [hevs]; simp)

theorem copy_bytes_cfr_mono (st : St) (uspace : Bool) (kerr : Option Nat) (n : Nat) :
    (copy_bytes st uspace kerr n).2.cfr = true → st.cfr = true := by
  rw [copy_bytes]
  split
  · intro hc
    have hfr := (uspace_frame (n + (pushPath Path.uspace st).evs.length + 1)
      (pushPath Path.uspace st) n 0).2.1
    rw [copy_bytes_uspace] at hc
    rw [hfr] at hc
    exact hc
  · rename_i hdisp
    have hcfr : st.cfr = true := by
      by_contra hc
      simp [Bool.not_eq_true] at hc
      simp [hc] at hdisp
    split
    · exact fun _ => hcfr
    · split
      · exact fun _ => hcfr
      · exact fun _ => hcfr

theorem copy_bytes_src (st : St) (uspace : Bool) (kerr : Option Nat) (n : Nat) :
    (copy_bytes st uspace kerr n).2.src = st.src := by
  rw [copy_bytes]
  split
  · rw [copy_bytes_uspace]
    exact (uspace_frame (n + (pushPath Path.uspace st).evs.length + 1)
      (pushPath Path.uspace st) n 0).1
  · split
    · rfl
    · split
      · rw [copy_bytes_uspace]
        exact (uspace_frame _ _ n 0).1
      · rfl

theorem copy_bytes_trace_uspace (st : St) (kerr : Option Nat) (n : Nat) :
    (copy_bytes st true kerr n).2.trace = st.trace ++ [Path.uspace] := by
  rw [copy_bytes]
  rw [if_pos (by simp)]
  rw [copy_bytes_uspace]
  exact (uspace_frame (n + (pushPath Path.uspace st).evs.length + 1)
    (pushPath Path.uspace st) n 0).2.2


theorem copy_range_loop_ok (fuel : Nat) : ∀ (st : St) (uspace : Bool)
    (kerr : Option Nat) (len w v : Nat) (st2 : St),
    copy_range_fuel fuel st uspace kerr len w = (some (Except.ok v), st2) →
    w ≤ len → st.sPos ≤ st.src.size →
    v = len ∧ st2.src = st.src ∧ (st2.cfr = true → st.cfr = true) ∧
    st2.sPos = st.sPos + (len - w) ∧ st2.dPos = st.dPos + (len - w) ∧
    st2.dst.data
      = writeAtL st.dst.data st.dPos ((readAt st.src st.sPos (len - w)).map some) ∧
    (st.evs = [] → st2.evs = []) ∧
    st.sPos + (len - w) ≤ st.src.size := by
  induction fuel with
  | zero =>
    intro st uspace kerr len w v st2 h hw hsp
    simp [copy_range_fuel] at h
  | succ f ih =>
    intro st uspace kerr len w v st2 h hw hsp
    rw [copy_range_fuel] at h
    split at h
    · rename_i hlt
      split at h
      · rename_i n1 st3 heq
        obtain ⟨b1, b2, b3, b4, b5, b6, b7, b8⟩ := copy_bytes_ok _ _ _ _ _ _ heq
        have hsp3 : st3.sPos ≤ st3.src.size := by
          rw [b2, b4]
          exact b8 hsp
        obtain ⟨g1, g2, g3, g4, g5, g6, g7, g8⟩ :=
          ih _ _ _ _ _ _ _ h (by omega) hsp3
        have hn1 : n1 ≤ st.src.size - st.sPos := by
          have := b8 hsp
          omega
        have hClen : (readAt st.src st.sPos n1).length = n1 := by
          rw [readAt_length]
          omega
        refine ⟨g1, by rw [g2, b2], fun hc => b3 (g3 hc), ?_, ?_, ?_, ?_, ?_⟩
        · rw [g4, b4]
          omega
        · rw [g5, b5]
          omega
        · rw [g6, b6, b2, b4, b5]
          generalize hgC : readAt st.src st.sPos n1 = C
          rw [show st.dPos + n1 = st.dPos + (C.map some).length
              by rw [List.length_map, ← hgC, hClen]]
          rw [writeAtL_append, ← List.map_append]
          congr 2
          rw [← hgC, ← readAt_add]
          congr 1
          omega
        · exact fun he => g7 (b7 he)
        · rw [b2, b4] at g8
          omega
      · simp at h
      · simp at h
    · rename_i hlt
      have hfst : some (Except.ok w) = some (Except.ok v) := congrArg Prod.fst h
      have hsnd : st = st2 := congrArg Prod.snd h
      simp only [Option.some.injEq, Except.ok.injEq] at hfst
      have hwl : w ≤ len := hw
      refine ⟨by omega, by rw [← hsnd], fun hc => by rw [← hsnd] at hc; exact hc,
        by rw [← hsnd]; omega, by rw [← hsnd]; omega, ?_,
        fun he => by rw [← hsnd]; exact he, by omega⟩
      rw [← hsnd]
      rw [show len - w = 0 by omega, readAt_zero]
      simp [writeAtL_nil]

theorem copy_range_complete (fuel : Nat) (st : St) (uspace : Bool)
    (kerr : Option Nat) (len w : Nat) (hevs : st.evs = [])
    (hben : uspace = true ∨ st.cfr = false ∨ kerr = none ∨
      kerr = some ENOSYS ∨ kerr = some EPERM)
    (hw : w ≤ len) (hsz : st.sPos + (len - w) ≤ st.src.size)
    (hf : len - w < fuel) :
    (copy_range_fuel fuel st uspace kerr len w).1 = some (Except.ok len) := by
  cases fuel with
  | zero => omega
  | succ f =>
    rw [copy_range_fuel]
    by_cases hlt : w < len
    · rw [if_pos hlt]
      have hcb := copy_bytes_complete st uspace kerr (len - w) hevs hben (by omega)
      have hpair := (@Prod.mk.eta _ _ (copy_bytes st uspace kerr (len - w))).symm
      rw [hcb] at hpair
      rw [hpair]
      dsimp only
      rw [show w + (len - w) = len by omega]
      cases f with
      | zero => omega
      | succ f2 =>
        rw [copy_range_fuel]
        rw [if_neg (by omega)]
    · rw [if_neg hlt]
      rw [show w = len by omega]

theorem copy_range_nokernel (fuel : Nat) : ∀ (st : St) (kerr : Option Nat)
    (len w : Nat), Path.kernel ∉ st.trace →
    Path.kernel ∉ (copy_range_fuel fuel st true kerr len w).2.trace := by
  induction fuel with
  | zero => intro st kerr len w h; simpa [copy_range_fuel] using h
  | succ f ih =>
    intro st kerr len w hn
    rw [copy_range_fuel]
    split
    · split
      · rename_i n1 st3 heq
        apply ih
        have := copy_bytes_trace_uspace st kerr (len - w)
        rw [heq] at this
        rw [this]
        simp [List.mem_append]
        exact fun hc => hn hc
      · rename_i e st3 heq
        have := copy_bytes_trace_uspace st kerr (len - w)
        rw [heq] at this
        dsimp only
        rw [this]
        simp [List.mem_append]
        exact fun hc => hn hc
      · rename_i st3 heq
        have := copy_bytes_trace_uspace st kerr (len - w)
        rw [heq] at this
        dsimp only
        rw [this]
        simp [List.mem_append]
        exact fun hc => hn hc
    · exact hn


theorem copy_sparse_loop_ok (fuel : Nat) : ∀ (st : St) (uspace : Bool)
    (kerr : Option Nat) (len pos v : Nat) (st2 : St),
    copy_sparse_fuel fuel st uspace kerr len pos = (some (Except.ok v), st2) →
    len = st.src.size → pos ≤ len →
    st.dst.data = st.src.data.take pos ++ List.replicate (len - pos) none →
    v = len ∧ st2.src = st.src ∧ st2.dst.data = st.src.data ∧
    (st2.cfr = true → st.cfr = true) ∧ (st.evs = [] → st2.evs = []) := by
  induction fuel with
  | zero =>
    intro st uspace kerr len pos v st2 h hlen hpos hdst
    simp [copy_sparse_fuel] at h
  | succ f ih =>
    intro st uspace kerr len pos v st2 h hlen hpos hdst
    rw [copy_sparse_fuel] at h
    split at h
    · rename_i hlt
      dsimp only at h
      rcases hseg : next_sparse_segments st.src pos with ⟨nd, nh⟩
      rw [hseg] at h
      dsimp only at h
      obtain ⟨s1, s2, s3, s4, s5, s6⟩ :=
        next_sparse_segments_spec st.src pos nd nh (by rw [← hlen]; omega) hseg
      split at h
      · rename_i v1 st3 heq
        rw [copy_range] at heq
        obtain ⟨b1, b2, b3, b4, b5, b6, b7, b8⟩ :=
          copy_range_loop_ok _ _ _ _ _ _ _ _ heq (Nat.zero_le _)
            (by dsimp only
                have hsz2 : st.src.size = st.src.data.length := rfl
                omega)
        dsimp only at b2 b3 b4 b5 b6 b7
        have hinv : st3.dst.data
            = st.src.data.take nh ++ List.replicate (len - nh) none := by
          rw [b6]
          rw [Nat.sub_zero]
          exact sparse_inv_step st.src st.dst.data pos nd nh len hlen s1
            s2 (by rw [hlen]; exact s3) s5 s6 hdst
        obtain ⟨g1, g2, g3, g4, g5⟩ := ih _ _ _ _ _ _ _ h
          (by rw [b2]; exact hlen) (by omega) (by rw [b2]; exact hinv)
        refine ⟨g1, by rw [g2, b2], by rw [g3, b2],
          fun hc => b3 (g4 hc), fun he => g5 (b7 he)⟩
      · simp at h
      · simp at h
    · rename_i hlt
      have hfst : some (Except.ok len) = some (Except.ok v) := congrArg Prod.fst h
      have hsnd : st = st2 := congrArg Prod.snd h
      simp only [Option.some.injEq, Except.ok.injEq] at hfst
      have hpl : pos = len := by omega
      refine ⟨by omega, by rw [← hsnd], ?_, fun hc => by rw [← hsnd] at hc; exact hc,
        fun he => by rw [← hsnd]; exact he⟩
      rw [← hsnd, hdst, hpl]
      rw [show len - len = 0 by omega]
      simp only [List.replicate_zero, List.append_nil]
      rw [hlen]
      exact List.take_length st.src.data


theorem copy_sparse_complete (fuel : Nat) : ∀ (st : St) (uspace : Bool)
    (kerr : Option Nat) (len pos : Nat),
    st.evs = [] →
    (uspace = true ∨ st.cfr = false ∨ kerr = none ∨
      kerr = some ENOSYS ∨ kerr = some EPERM) →
    len = st.src.size → pos ≤ len → len - pos < fuel →
    (copy_sparse_fuel fuel st uspace kerr len pos).1 = some (Except.ok len) := by
  induction fuel with
  | zero => intro st uspace kerr len pos _ _ _ _ hf; omega
  | succ f ih =>
    intro st uspace kerr len pos hevs hben hlen hpos hf
    rw [copy_sparse_fuel]
    by_cases hlt : pos < len
    · rw [if_pos hlt]
      dsimp only
      rcases hseg : next_sparse_segments st.src pos with ⟨nd, nh⟩
      dsimp only
      obtain ⟨s1, s2, s3, s4, s5, s6⟩ :=
        next_sparse_segments_spec st.src pos nd nh (by rw [← hlen]; omega) hseg
      have hsz2 : st.src.size = st.src.data.length := rfl
      have hcr : (copy_range { st with sPos := nd, dPos := nd } uspace kerr
          (nh - nd)).1 = some (Except.ok (nh - nd)) := by
        rw [copy_range]
        exact copy_range_complete _ _ _ _ _ _ hevs hben (Nat.zero_le _)
          (by dsimp only; omega) (by omega)
      have hpair := (@Prod.mk.eta _ _
        (copy_range { st with sPos := nd, dPos := nd } uspace kerr (nh - nd))).symm
      rw [hcr] at hpair
      rw [hpair]
      dsimp only
      set st3 := (copy_range { st with sPos := nd, dPos := nd } uspace kerr
        (nh - nd)).2 with hst3
      have heq : copy_range { st with sPos := nd, dPos := nd } uspace kerr (nh - nd)
          = (some (Except.ok (nh - nd)), st3) := by
        rw [hst3, ← hcr]
      rw [copy_range] at heq
      obtain ⟨b1, b2, b3, b4, b5, b6, b7, b8⟩ :=
        copy_range_loop_ok _ _ _ _ _ _ _ _ heq (Nat.zero_le _)
          (by dsimp only; omega)
      dsimp only at b2 b3 b7
      apply ih
      · exact b7 hevs
      · rcases hben with hb | hb | hb | hb | hb
        · exact Or.inl hb
        · refine Or.inr (Or.inl ?_)
          cases hc : st3.cfr with
          | false => rfl
          | true => exact absurd (b3 hc) (by rw [hb]; simp)
        all_goals exact Or.inr (Or.inr (by simp [hb]))
      · rw [b2]; exact hlen
      · omega
      · omega
    · rw [if_neg hlt]

theorem copy_sparse_nokernel (fuel : Nat) : ∀ (st : St) (kerr : Option Nat)
    (len pos : Nat), Path.kernel ∉ st.trace →
    Path.kernel ∉ (copy_sparse_fuel fuel st true kerr len pos).2.trace := by
  induction fuel with
  | zero => intro st kerr len pos h; simpa [copy_sparse_fuel] using h
  | succ f ih =>
    intro st kerr len pos hn
    rw [copy_sparse_fuel]
    split
    · dsimp only
      rcases hseg : next_sparse_segments st.src pos with ⟨nd, nh⟩
      dsimp only
      have hnk : Path.kernel ∉ (copy_range { st with sPos := nd, dPos := nd }
          true kerr (nh - nd)).2.trace := by
        rw [copy_range]
        exact copy_range_nokernel _ _ _ _ _ hn
      split
      · rename_i n1 st3 heq
        apply ih
        rw [heq] at hnk
        exact hnk
      · rename_i e st3 heq
        rw [heq] at hnk
        exact hnk
      · rename_i st3 heq
        rw [heq] at hnk
        exact hnk
    · exact hn

theorem writeAtL_nil_left (d : List (Option Nat)) : writeAtL [] 0 d = d := by
  by_cases hd : d = []
  · simp [writeAtL, hd]
  · unfold writeAtL
    rw [if_neg hd]
    simp

theorem readAt_all (f : FsFile) : readAt f 0 f.size = readAll f := by
  unfold readAt readAll FsFile.size
  rw [List.drop_zero, List.take_length]

theorem copy_range_ok_w (st : St) (uspace : Bool) (kerr : Option Nat)
    (len v : Nat) (st2 : St)
    (h : copy_range st uspace kerr len = (some (Except.ok v), st2))
    (hsp : st.sPos ≤ st.src.size) :
    v = len ∧ st2.src = st.src ∧ (st2.cfr = true → st.cfr = true) ∧
    st2.dst.data
      = writeAtL st.dst.data st.dPos ((readAt st.src st.sPos len).map some) ∧
    (st.evs = [] → st2.evs = []) ∧ st.sPos + len ≤ st.src.size := by
  rw [copy_range] at h
  obtain ⟨g1, g2, g3, g4, g5, g6, g7, g8⟩ :=
    copy_range_loop_ok _ _ _ _ _ _ _ _ h (Nat.zero_le _) hsp
  rw [Nat.sub_zero] at g6 g8
  exact ⟨g1, g2, g3, g6, g7, g8⟩

theorem copy_sparse_ok (st : St) (uspace : Bool) (kerr : Option Nat)
    (v : Nat) (st2 : St)
    (h : copy_sparse st uspace kerr = (some (Except.ok v), st2))
    (hdst : st.dst.data = []) :
    v = st.src.size ∧ st2.src = st.src ∧ st2.dst.data = st.src.data ∧
    (st2.cfr = true → st.cfr = true) ∧ (st.evs = [] → st2.evs = []) := by
  rw [copy_sparse] at h
  have hinv : (allocate_file st.dst st.src.size).data
      = st.src.data.take 0 ++ List.replicate (st.src.size - 0) none := by
    simp [allocate_file, hdst]
  obtain ⟨g1, g2, g3, g4, g5⟩ :=
    copy_sparse_loop_ok _ _ _ _ _ _ _ _ h rfl (Nat.zero_le _) hinv
  exact ⟨g1, g2, g3, g4, g5⟩

theorem copy_sparse_complete_w (st : St) (uspace : Bool) (kerr : Option Nat)
    (hevs : st.evs = [])
    (hben : uspace = true ∨ st.cfr = false ∨ kerr = none ∨
      kerr = some ENOSYS ∨ kerr = some EPERM) :
    (copy_sparse st uspace kerr).1 = some (Except.ok st.src.size) := by
  rw [copy_sparse]
  exact copy_sparse_complete _ _ _ _ _ _ hevs hben rfl (Nat.zero_le _) (by omega)

theorem copy_sparse_nokernel_w (st : St) (kerr : Option Nat)
    (h : Path.kernel ∉ st.trace) :
    Path.kernel ∉ (copy_sparse st true kerr).2.trace := by
  rw [copy_sparse]
  exact copy_sparse_nokernel _ _ _ _ _ h

theorem runSeq_cfr_mono : ∀ (calls : List (Bool × Option Nat × Nat)) (st : St),
    (runCopyBytesSeq st calls).cfr = true → st.cfr = true := by
  intro calls
  induction calls with
  | nil => intro st h; exact h
  | cons c rest ih =>
    intro st h
    exact copy_bytes_cfr_mono _ _ _ _ (ih _ h)

theorem copy_ok (w : World) (kerr : Option Nat) (v : Nat) (w2 : World)
    (h : copy w kerr = (some (Except.ok v), w2)) :
    v = w.src.size ∧ readAll w2.dst = readAll w.src ∧ w2.src = w.src := by
  rw [copy] at h
  split at h
  · simp at h
  · rename_i hfile
    dsimp only at h
    split at h
    · rename_i total st2 heq
      have hfst : some (Except.ok total) = some (Except.ok v) := congrArg Prod.fst h
      have hsnd := congrArg Prod.snd h
      simp only [Option.some.injEq, Except.ok.injEq] at hfst
      dsimp only at hsnd
      split at heq
      · -- sparse branch
        obtain ⟨g1, g2, g3, g4, g5⟩ := copy_sparse_ok _ _ _ _ _ heq rfl
        dsimp only at g1 g2 g3
        refine ⟨by omega, ?_, ?_⟩
        · rw [← hsnd]
          unfold readAll
          dsimp only
          rw [g3]
        · rw [← hsnd]
          dsimp only
          rw [g2]
      · -- contiguous branch
        obtain ⟨g1, g2, g3, g4, g5, g6⟩ :=
          copy_range_ok_w _ _ _ _ _ _ heq (by dsimp only; omega)
        dsimp only [fileCreate] at g1 g2 g4
        rw [writeAtL_nil_left] at g4
        refine ⟨by rw [← hfst, g1], ?_, ?_⟩
        · rw [← hsnd]
          unfold readAll
          dsimp only
          rw [g4]
          have := readAt_all w.src
          unfold readAll at this
          rw [this, map_getD_map_some]
        · rw [← hsnd]
          dsimp only
          rw [g2]
    · simp at h
    · simp at h

/-! ### The specification claims -/

/-- Claim C1: for every world and kernel oracle, a successful call of
`copy` returns the logical length of the source file and leaves the
destination with byte contents identical to the source (holes reading as
zero); in particular this holds for a source file with no holes. -/
theorem c1_copy_success_identical (w : World) (kerr : Option Nat)
    (v : Nat) (w2 : World) (h : copy w kerr = (some (Except.ok v), w2)) :
    v = w.src.size ∧ readAll w2.dst = readAll w.src :=
  ⟨(copy_ok w kerr v w2 h).1, (copy_ok w kerr v w2 h).2.1⟩

/-- Witness for C1: the concrete hole-free two-byte file is copied
successfully, reporting length 2 and replicating the bytes. -/
theorem c1_copy_success_identical_witness :
    (2 : Nat) = wNoHole.src.size ∧
    readAll (copy wNoHole none).2.dst = readAll wNoHole.src :=
  c1_copy_success_identical wNoHole none 2 (copy wNoHole none).2 (by decide)

/-- Claim C2: the sparse orchestrator, run on a freshly created (empty)
destination with no injected I/O failures and a kernel oracle that is
benign (working, or unsupported so that the fallback takes over),
terminates with the source length and leaves the destination cells
identical to the source cells: every data byte is copied and every hole
byte remains a hole, so the destination length, holes and data all match
the source exactly. -/
theorem c2_copy_sparse_replicates (st : St) (uspace : Bool) (kerr : Option Nat)
    (hdst : st.dst.data = []) (hevs : st.evs = [])
    (hben : uspace = true ∨ st.cfr = false ∨ kerr = none ∨
      kerr = some ENOSYS ∨ kerr = some EPERM) :
    (copy_sparse st uspace kerr).1 = some (Except.ok st.src.size) ∧
    (copy_sparse st uspace kerr).2.dst.data = st.src.data := by
  have h1 := copy_sparse_complete_w st uspace kerr hevs hben
  have hpair := (@Prod.mk.eta _ _ (copy_sparse st uspace kerr)).symm
  rw [h1] at hpair
  obtain ⟨g1, g2, g3, g4, g5⟩ := copy_sparse_ok _ _ _ _ _ hpair hdst
  exact ⟨h1, g3⟩

/-- Witness for C2: the concrete five-byte sparse file (hole, data, data,
hole, data) is replicated exactly, holes included. -/
theorem c2_copy_sparse_replicates_witness :
    stSparse.dst.data = [] ∧
    (copy_sparse stSparse false none).1 = some (Except.ok stSparse.src.size) ∧
    (copy_sparse stSparse false none).2.dst.data = stSparse.src.data := by
  have h := c2_copy_sparse_replicates stSparse false none rfl rfl
    (Or.inr (Or.inr (Or.inl rfl)))
  exact ⟨rfl, h.1, h.2⟩

/-- Claim C6: when the source path does not name an existing regular file,
`copy` returns the `InvalidInput` error immediately and the world —
including the pre-existing destination file — is completely untouched: no
file is opened, created or truncated. -/
theorem c6_invalid_source_untouched (w : World) (kerr : Option Nat)
    (h : w.srcIsFile = false) :
    copy w kerr = (some (Except.error IOErr.invalidInput), w) := by
  rw [copy, if_pos (by rw [h]; rfl)]

/-- Witness for C6: a world without a regular source file is rejected with
`InvalidInput` and left unchanged. -/
theorem c6_invalid_source_untouched_witness :
    wNoSource.srcIsFile = false ∧
    copy wNoSource none = (some (Except.error IOErr.invalidInput), wNoSource) :=
  ⟨rfl, c6_invalid_source_untouched wNoSource none rfl⟩

/-- Claim C10: whenever `copy_bytes_uspace` returns successfully, the
returned byte count is exactly the requested `n` — the loop never returns
a short count (stronger than the general byte-range contract, which allows
an attempt to transfer fewer bytes). -/
theorem c10_uspace_returns_exact (st : St) (n v : Nat) (st2 : St)
    (h : copy_bytes_uspace st n = (some (Except.ok v), st2)) : v = n := by
  rw [copy_bytes_uspace] at h
  exact (uspace_loop_ok _ _ _ _ _ _ h (Nat.zero_le n)).1

/-- Witness for C10: a concrete successful two-byte user-space copy
returns exactly 2. -/
theorem c10_uspace_returns_exact_witness : (2 : Nat) = 2 ∧
    copy_bytes_uspace stDispatch 2
      = (some (Except.ok 2), (copy_bytes_uspace stDispatch 2).2) :=
  ⟨c10_uspace_returns_exact stDispatch 2 2 (copy_bytes_uspace stDispatch 2).2
    (by decide), by decide⟩

/-- Claim C3: when the source and destination report different device
identifiers, a `copy` invocation never dispatches the kernel-accelerated
transfer path for any byte-range transfer — whatever the value of the
availability flag and whatever the kernel oracle would have answered. -/
theorem c3_crossfs_never_kernel (w : World) (kerr : Option Nat)
    (hdev : w.src.dev ≠ w.dst.dev) (htr : Path.kernel ∉ w.trace) :
    Path.kernel ∉ (copy w kerr).2.trace := by
  rw [copy]
  split
  · exact htr
  · dsimp only
    have hx : (copy_parms w.src (fileCreate w.dst)).2 = true := by
      unfold copy_parms statOf fileCreate
      exact decide_eq_true hdev
    rw [hx]
    set st0 : St := { src := w.src, dst := fileCreate w.dst, sPos := 0, dPos := 0, cfr := w.cfr, evs := w.evs, trace := w.trace } with hst0
    have htr0 : Path.kernel ∉ st0.trace := by rw [hst0]; exact htr
    have hnk : Path.kernel ∉
        (if (copy_parms w.src (fileCreate w.dst)).1 = true then
          copy_sparse st0 true kerr
        else copy_range st0 true kerr w.src.size).2.trace := by
      split
      · exact copy_sparse_nokernel_w _ _ htr0
      · rw [copy_range]
        exact copy_range_nokernel _ _ _ _ _ htr0
    split
    · rename_i total st2 heq
      rw [heq] at hnk
      exact hnk
    · rename_i e st2 heq
      rw [heq] at hnk
      exact hnk
    · rename_i st2 heq
      rw [heq] at hnk
      exact hnk

/-- Witness for C3: a concrete cross-filesystem copy (devices 7 and 8)
leaves no kernel-path dispatch in the trace. -/
theorem c3_crossfs_never_kernel_witness :
    wCross.src.dev ≠ wCross.dst.dev ∧
    Path.kernel ∉ (copy wCross none).2.trace :=
  ⟨by decide, c3_crossfs_never_kernel wCross none (by decide) (by decide)⟩

/-- Claim C4: the `copy_bytes` dispatch. If the caller forces the
fallback or the availability flag is false, the fallback path is used
directly (flag untouched). Otherwise the accelerated path is attempted:
on success its result is returned with the flag still true and only the
kernel path dispatched; on `ENOSYS` or `EPERM` the flag is set to false
and the same request is retried exactly once via the fallback (the trace
shows one kernel attempt followed by one fallback dispatch); any other
raw OS error is returned unchanged with the flag untouched and no
fallback retry. -/
theorem c4_copy_bytes_dispatch (st : St) (uspace : Bool) (kerr : Option Nat)
    (n : Nat) :
    ((uspace = true ∨ st.cfr = false) →
      copy_bytes st uspace kerr n = copy_bytes_uspace (pushPath Path.uspace st) n ∧
      (copy_bytes st uspace kerr n).2.cfr = st.cfr) ∧
    (uspace = false → st.cfr = true → kerr = none →
      copy_bytes st uspace kerr n
        = (some (Except.ok (copy_bytes_kernel (pushPath Path.kernel st) n).1),
           (copy_bytes_kernel (pushPath Path.kernel st) n).2) ∧
      (copy_bytes st uspace kerr n).2.cfr = st.cfr ∧
      (copy_bytes st uspace kerr n).2.trace = st.trace ++ [Path.kernel]) ∧
    (∀ e, uspace = false → st.cfr = true → kerr = some e →
      (e = ENOSYS ∨ e = EPERM) →
      copy_bytes st uspace kerr n
        = copy_bytes_uspace (pushPath Path.uspace
            { pushPath Path.kernel st with cfr := false }) n ∧
      (copy_bytes st uspace kerr n).2.cfr = false ∧
      (copy_bytes st uspace kerr n).2.trace
        = st.trace ++ [Path.kernel, Path.uspace]) ∧
    (∀ e, uspace = false → st.cfr = true → kerr = some e →
      ¬(e = ENOSYS ∨ e = EPERM) →
      copy_bytes st uspace kerr n
        = (some (Except.error (IOErr.os e)), pushPath Path.kernel st) ∧
      (copy_bytes st uspace kerr n).2.cfr = st.cfr) := by
  refine ⟨?_, ?_, ?_, ?_⟩
  · intro hd
    have hcond : (uspace || !st.cfr) = true := by
      rcases hd with hd | hd <;> simp [hd]
    rw [copy_bytes, if_pos hcond]
    refine ⟨rfl, ?_⟩
    rw [copy_bytes_uspace]
    have := (uspace_frame (n + (pushPath Path.uspace st).evs.length + 1)
      (pushPath Path.uspace st) n 0).2.1
    rw [this]
    rfl
  · intro hu hc hk
    have hcond : ¬ (uspace || !st.cfr) = true := by simp [hu, hc]
    rw [copy_bytes, if_neg hcond, hk]
    exact ⟨rfl, rfl, rfl⟩
  · intro e hu hc hk he
    have hcond : ¬ (uspace || !st.cfr) = true := by simp [hu, hc]
    rw [copy_bytes, if_neg hcond, hk]
    dsimp only
    rw [if_pos he]
    refine ⟨rfl, ?_, ?_⟩
    · rw [copy_bytes_uspace]
      have := (uspace_frame (n + (pushPath Path.uspace
          { pushPath Path.kernel st with cfr := false }).evs.length + 1)
        (pushPath Path.uspace { pushPath Path.kernel st with cfr := false }) n 0).2.1
      rw [this]
      rfl
    · rw [copy_bytes_uspace]
      have := (uspace_frame (n + (pushPath Path.uspace
          { pushPath Path.kernel st with cfr := false }).evs.length + 1)
        (pushPath Path.uspace { pushPath Path.kernel st with cfr := false }) n 0).2.2
      rw [this]
      dsimp only [pushPath]
      rw [List.append_assoc]
      rfl
  · intro e hu hc hk he
    have hcond : ¬ (uspace || !st.cfr) = true := by simp [hu, hc]
    rw [copy_bytes, if_neg hcond, hk]
    dsimp only
    rw [if_neg he]
    exact ⟨rfl, rfl⟩

/-- Witness for C4: on a concrete state with the flag set, an `ENOSYS`
kernel oracle makes the dispatch retry once via the fallback with the flag
flipped to false and the trace recording one kernel attempt followed by
one fallback dispatch. -/
theorem c4_copy_bytes_dispatch_witness :
    (ENOSYS = ENOSYS ∨ ENOSYS = EPERM) ∧
    copy_bytes stDispatch false (some ENOSYS) 2
      = copy_bytes_uspace (pushPath Path.uspace
          { pushPath Path.kernel stDispatch with cfr := false }) 2 ∧
    (copy_bytes stDispatch false (some ENOSYS) 2).2.cfr = false ∧
    (copy_bytes stDispatch false (some ENOSYS) 2).2.trace
      = stDispatch.trace ++ [Path.kernel, Path.uspace] :=
  ⟨Or.inl rfl,
    (c4_copy_bytes_dispatch stDispatch false (some ENOSYS) 2).2.2.1 ENOSYS
      rfl rfl rfl (Or.inl rfl)⟩

/-- Claim C5: the acceleration-availability flag starts out true, a single
`copy_bytes` call never turns it from false to true, and across any
sequence of `copy_bytes` calls in one execution context the flag is
monotonically non-increasing (once false it stays false). -/
theorem c5_flag_monotone :
    HAS_COPY_FILE_RANGE_init = true ∧
    (∀ (st : St) (uspace : Bool) (kerr : Option Nat) (n : Nat),
      (copy_bytes st uspace kerr n).2.cfr = true → st.cfr = true) ∧
    (∀ (st : St) (calls : List (Bool × Option Nat × Nat)),
      (runCopyBytesSeq st calls).cfr = true → st.cfr = true) :=
  ⟨rfl, copy_bytes_cfr_mono, fun st calls => runSeq_cfr_mono calls st⟩

/-- Witness for C5: a concrete two-call sequence that ends with the flag
true must have started with it true. -/
theorem c5_flag_monotone_witness :
    HAS_COPY_FILE_RANGE_init = true ∧
    (runCopyBytesSeq stDispatch [(false, none, 1), (true, none, 1)]).cfr = true ∧
    stDispatch.cfr = true :=
  ⟨c5_flag_monotone.1, by decide,
    c5_flag_monotone.2.2 stDispatch [(false, none, 1), (true, none, 1)] (by decide)⟩

/-- Claim C7: in the user-space fallback copier, a zero-length read before
the requested count is reached yields the fatal `InvalidData` ("source
ended prematurely") error, which is a distinct error kind from every raw
OS error; a read interrupted by a signal is retried with no bytes counted
and no cursor moved; a read failure other than interruption, and a write
failure, are propagated unchanged. -/
theorem c7_uspace_read_write_errors (fuel : Nat) (st : St) (n w : Nat) :
    (st.evs = [] → w < n → st.src.size ≤ st.sPos →
      (copy_bytes_uspace_fuel (fuel+1) st n w).1
        = some (Except.error IOErr.invalidData)) ∧
    (∀ e, IOErr.invalidData ≠ IOErr.os e) ∧
    (∀ rest, st.evs = Ev.rIntr :: rest → w < n →
      copy_bytes_uspace_fuel (fuel+1) st n w
        = copy_bytes_uspace_fuel fuel { st with evs := rest } n w) ∧
    (∀ e rest, st.evs = Ev.rErr e :: rest → w < n →
      (copy_bytes_uspace_fuel (fuel+1) st n w).1 = some (Except.error e)) ∧
    (∀ e rest, st.evs = Ev.wErr e :: rest → w < n → st.sPos < st.src.size →
      (copy_bytes_uspace_fuel (fuel+1) st n w).1 = some (Except.error e)) := by
  refine ⟨?_, ?_, ?_, ?_, ?_⟩
  · intro hevs hlt hsz
    rw [copy_bytes_uspace_fuel, if_pos hlt, hevs]
    dsimp only
    rw [if_pos (by rw [readAt_length]; omega)]
  · intro e h
    cases h
  · intro rest hevs hlt
    rw [copy_bytes_uspace_fuel, if_pos hlt, hevs]
  · intro e rest hevs hlt
    rw [copy_bytes_uspace_fuel, if_pos hlt, hevs]
  · intro e rest hevs hlt hsz
    rw [copy_bytes_uspace_fuel, if_pos hlt, hevs]
    have hB : 0 < BLKSIZE := by norm_num [BLKSIZE]
    dsimp only
    rw [if_neg (by rw [readAt_length]; omega)]

/-- Witness for C7: on a concrete state an interrupted read is retried on
the remaining script with nothing counted, and an injected read error is
propagated unchanged. -/
theorem c7_uspace_read_write_errors_witness :
    stEvents.evs = Ev.rIntr :: [Ev.ok] ∧
    copy_bytes_uspace_fuel 3 stEvents 2 0
      = copy_bytes_uspace_fuel 2 { stEvents with evs := [Ev.ok] } 2 0 ∧
    (copy_bytes_uspace_fuel 3
        { stEvents with evs := [Ev.rErr (IOErr.os 5)] } 2 0).1
      = some (Except.error (IOErr.os 5)) := by
  refine ⟨rfl, ?_, ?_⟩
  · exact (c7_uspace_read_write_errors 2 stEvents 2 0).2.2.1 [Ev.ok] rfl
      (by omega)
  · exact (c7_uspace_read_write_errors 2
      { stEvents with evs := [Ev.rErr (IOErr.os 5)] } 2 0).2.2.2.1
      (IOErr.os 5) [] rfl (by omega)

/-- The flag is unchanged by a `copy_bytes` call whose kernel oracle works
(the flag is only ever assigned on `ENOSYS` or `EPERM`). -/
theorem copy_bytes_none_cfr (st : St) (uspace : Bool) (n : Nat) :
    (copy_bytes st uspace none n).2.cfr = st.cfr := by
  rw [copy_bytes]
  split
  · rw [copy_bytes_uspace]
    exact (uspace_frame (n + (pushPath Path.uspace st).evs.length + 1)
      (pushPath Path.uspace st) n 0).2.1
  · rfl

/-- On an empty source with the kernel path enabled, every `copy_bytes`
attempt transfers zero bytes, so the `copy_range` loop makes no progress
and exhausts any amount of fuel: the loop of the source never
terminates. -/
theorem copy_range_kernel_eof_stuck (fuel : Nat) : ∀ (st : St) (w : Nat),
    st.src.data = [] → st.cfr = true → w < 1 →
    (copy_range_fuel fuel st false none 1 w).1 = none := by
  induction fuel with
  | zero => intro st w _ _ _; rfl
  | succ f ih =>
    intro st w hsrc hcfr hw
    have hsz : st.src.size = 0 := by unfold FsFile.size; rw [hsrc]; rfl
    have h1 : (copy_bytes st false none (1 - w)).1 = some (Except.ok 0) := by
      rw [copy_bytes, if_neg (by rw [hcfr]; simp)]
      dsimp only [copy_bytes_kernel, pushPath]
      rw [show min (1 - w) (st.src.size - st.sPos) = 0 by omega]
    have hpair := (@Prod.mk.eta _ _ (copy_bytes st false none (1 - w))).symm
    rw [h1] at hpair
    rw [copy_range_fuel, if_pos hw, hpair]
    dsimp only
    apply ih
    · rw [copy_bytes_src]
      exact hsrc
    · rw [copy_bytes_none_cfr]
      exact hcfr
    · omega

/-- Counterexample for C8 as stated: on the concrete state with an empty
source file, the kernel path available and a working kernel oracle, the
request `copy_range(infd, outfd, false, 1)` terminates for no amount of
fuel — the loop adds zero transferred bytes forever, so there is no fuel
for which it produces a result. -/
theorem c8_copy_range_counterexample :
    ¬ ∃ (fuel : Nat) (r : Except IOErr Nat) (st2 : St),
      copy_range_fuel fuel stEmptySrc false none 1 0 = (some r, st2) := by
  rintro ⟨fuel, r, st2, h⟩
  have h0 := copy_range_kernel_eof_stuck fuel stEmptySrc 0 rfl rfl (by omega)
  rw [h] at h0
  simp at h0

/-- Claim C8, amended: a successful `copy_range` returns exactly `len`;
whenever the source provides `len` bytes from its cursor (and the kernel
oracle is benign or irrelevant) the loop terminates with `Ok len`; and on
the forced fallback path a source that ends prematurely terminates the
loop with the `InvalidData` error.  The unamended claim fails only on the
kernel path with an exhausted source, where the loop never terminates
(see the counterexample). -/
theorem c8_copy_range_amended (st : St) (uspace : Bool) (kerr : Option Nat)
    (len : Nat) :
    (∀ (v : Nat) (st2 : St), copy_range st uspace kerr len
        = (some (Except.ok v), st2) → st.sPos ≤ st.src.size → v = len) ∧
    (st.evs = [] →
      (uspace = true ∨ st.cfr = false ∨ kerr = none ∨
        kerr = some ENOSYS ∨ kerr = some EPERM) →
      st.sPos + len ≤ st.src.size →
      (copy_range st uspace kerr len).1 = some (Except.ok len)) ∧
    (uspace = true → st.evs = [] → 0 < len → st.src.size < st.sPos + len →
      (copy_range st uspace kerr len).1
        = some (Except.error IOErr.invalidData)) := by
  refine ⟨?_, ?_, ?_⟩
  · intro v st2 h hsp
    rw [copy_range] at h
    exact (copy_range_loop_ok _ _ _ _ _ _ _ _ h (Nat.zero_le _) hsp).1
  · intro hevs hben hsz
    rw [copy_range]
    exact copy_range_complete _ _ _ _ _ _ hevs hben (Nat.zero_le _)
      (by omega) (by omega)
  · intro hu hevs hlen hshort
    subst hu
    have hus : (copy_bytes st true kerr len).1
        = some (Except.error IOErr.invalidData) := by
      rw [copy_bytes, if_pos (by simp), copy_bytes_uspace]
      exact uspace_short_err _ _ _ _
        (by dsimp only [pushPath]; exact hevs) (by omega)
        (by dsimp only [pushPath]; omega)
        (by dsimp only [pushPath]
            rw [hevs]
            simp only [List.length_nil]
            omega)
    have hpair := (@Prod.mk.eta _ _ (copy_bytes st true kerr len)).symm
    rw [hus] at hpair
    rw [copy_range, copy_range_fuel, if_pos (by omega), Nat.sub_zero, hpair]

/-- Witness for C8 (amended): on a concrete state with two available
source bytes the loop terminates with `Ok 2`, and a successful result on
that state equals the requested length. -/
theorem c8_copy_range_amended_witness :
    stDispatch.evs = [] ∧ stDispatch.sPos + 2 ≤ stDispatch.src.size ∧
    (copy_range stDispatch false none 2).1 = some (Except.ok 2) :=
  ⟨rfl, by decide,
    (c8_copy_range_amended stDispatch false none 2).2.1 rfl
      (Or.inr (Or.inr (Or.inl rfl))) (by decide)⟩

/-- Claim C9: the copy parameters are computed exactly by the source
formula — "is-sparse" holds precisely when `st_blocks` is strictly below
`st_size / st_blksize` with integer (flooring) division, and
"cross-filesystem" holds precisely when the two `st_dev` fields differ.
The flooring division is kept as-is: the 4097-byte `edgeFile` whose last
byte is a hole still has `st_blocks = 8` and `4097 / 4096 = 1`, so it is
classified as not sparse. -/
theorem copy_parms_fst_iff (f g : FsFile) :
    (copy_parms f g).1 = true ↔
      (statOf f).st_blocks < (statOf f).st_size / (statOf f).st_blksize := by
  simp [copy_parms, statOf]

theorem copy_parms_snd_iff (f g : FsFile) :
    (copy_parms f g).2 = true ↔ (statOf f).st_dev ≠ (statOf g).st_dev := by
  simp [copy_parms, statOf]

theorem c9_copy_parms_formula :
    (∀ f g : FsFile, 0 < (statOf f).st_blksize →
      (((copy_parms f g).1 = true) ↔
        (statOf f).st_blocks < (statOf f).st_size / (statOf f).st_blksize) ∧
      (((copy_parms f g).2 = true) ↔ (statOf f).st_dev ≠ (statOf g).st_dev)) ∧
    (copy_parms edgeFile edgeFile).1 = false ∧
    edgeFile.data[4096]? = some none := by
  refine ⟨?_, ?_, ?_⟩
  · intro f g _
    constructor <;> simp [copy_parms, statOf]
  · have hlen : edgeFile.data.length = 4097 := by
      show (List.replicate 4096 (some 0) ++ [none]).length = 4097
      rw [List.length_append, List.length_replicate]
      rfl
    have hP : ¬ ((statOf edgeFile).st_blocks
        < (statOf edgeFile).st_size / (statOf edgeFile).st_blksize) := by
      simp only [statOf]
      rw [hlen]
      show ¬ ((8 : Nat) < 4097 / 4096)
      decide
    cases hb : (copy_parms edgeFile edgeFile).1 with
    | false => rfl
    | true => exact absurd ((copy_parms_fst_iff edgeFile edgeFile).mp hb) hP
  · show (List.replicate 4096 (some 0) ++ [none])[4096]? = some none
    rw [List.getElem?_append_right (by rw [List.length_replicate]),
      List.length_replicate]
    rfl

/-- Witness for C9: on a concrete pair of files with block size 1 the
formula classifies the source as sparse and the pair as
cross-filesystem. -/
theorem c9_copy_parms_formula_witness :
    0 < (statOf tinySparse).st_blksize ∧
    (copy_parms tinySparse tinyOther).1 = true ∧
    (copy_parms tinySparse tinyOther).2 = true := by
  have h := c9_copy_parms_formula.1 tinySparse tinyOther (by decide)
  exact ⟨by decide, h.1.mpr (by decide), h.2.mpr (by decide)⟩

end FsLinux
